import Mathlib

/-!
# Snek3D-Frontend: wire-frame decoder of `main.go`

A shallow embedding of the decoding half of `main.go`: the width switch that
selects `bytesToU64`, the metadata step of `main`, `NextFrame`, `parseCoords`,
`parseColors` and `parsePoint`, followed by theorems about them.

Conventions of the embedding.

* A Go byte slice is a window on a backing array.  Indexing `s[i]` is checked
  against the length, a slice expression `s[lo:hi]` against the capacity.
* A run-time panic (index out of range, slice bounds out of range, call of a
  nil function value, `orDie` on a transport error) is an `Except.error`.
* `uint8` arithmetic on `lenInt` is taken modulo 256; `int` is 64 bits wide, so
  the offsets computed in `NextFrame` from a `uint32` count never wrap.
* `float32` values are kept as the term that produced them (`F32`): a
  conversion from an unsigned integer, or a quotient of two such terms.
* The websocket connection is the queue of messages it will still deliver.
-/

namespace Snek3D

/-- One octet. -/
abbrev Byte := Fin 256

/-- The run-time panics the decoder can raise. -/
inductive Fault where
  | indexOutOfRange
  | sliceBounds
  | nilFunc
  | readError
deriving DecidableEq, Repr

/-- A Go `[]byte`: `elems` are the `len` visible bytes, `spare` the bytes of the
backing array between the length and the capacity. -/
structure Slice where
  elems : List Byte
  spare : List Byte
deriving DecidableEq, Repr

namespace Slice

/-- The backing array from the first element of the slice up to its capacity. -/
def full (s : Slice) : List Byte := s.elems ++ s.spare

/-- Go `len(s)`. -/
def len (s : Slice) : Nat := s.elems.length

/-- Go `cap(s)`. -/
def cap (s : Slice) : Nat := s.full.length

/-- Go `s[i]`: panics unless `i < len(s)`. -/
def index (s : Slice) (i : Nat) : Except Fault Byte :=
  match s.elems[i]? with
  | some b => .ok b
  | none => .error .indexOutOfRange

/-- Go `s[lo:hi]`: panics unless `lo <= hi <= cap(s)`; the result shares the
backing array, so its capacity reaches to the end of `s`. -/
def reslice (s : Slice) (lo hi : Nat) : Except Fault Slice :=
  if lo ≤ hi ∧ hi ≤ s.cap then
    .ok ⟨(s.full.drop lo).take (hi - lo), s.full.drop hi⟩
  else .error .sliceBounds

end Slice

/-- Symbolic `float32`: `conv v` is `float32(v)` for an unsigned integer `v`
(also an untyped integer constant), `quot a b` is `a / b`. -/
inductive F32 where
  | conv (v : Nat)
  | quot (a b : F32)
deriving DecidableEq, Repr

/-- Modelled from the spec: the `Point` type is declared outside `main.go`; a
point is a position `(x,y,z)` and a colour `(r,g,b,a)`, all `float32`. -/
structure Point where
  x : F32
  y : F32
  z : F32
  r : F32
  g : F32
  b : F32
  a : F32
deriving DecidableEq, Repr

/-- Modelled from the spec: the constructor `PC(x, y, z, r, g, b, a)` is defined
outside `main.go`; it builds the point with that position and colour. -/
def PC (x y z r g b a : F32) : Point := ⟨x, y, z, r, g, b, a⟩

/-- The two values of `binary.ByteOrder` the endianness probe can select. -/
inductive ByteOrder where
  | LittleEndian
  | BigEndian
deriving DecidableEq, Repr

/-- `uint8` wrap-around. -/
def u8 (n : Nat) : Nat := n % 256

/-- Go `binary.LittleEndian.Uint16`. -/
def leUint16 (b : Slice) : Except Fault Nat := do
  let _ ← b.index 1
  let b0 ← b.index 0
  let b1 ← b.index 1
  pure (b0.val ||| b1.val <<< 8)

/-- Go `binary.BigEndian.Uint16`. -/
def beUint16 (b : Slice) : Except Fault Nat := do
  let _ ← b.index 1
  let b0 ← b.index 0
  let b1 ← b.index 1
  pure (b1.val ||| b0.val <<< 8)

/-- Go `binary.LittleEndian.Uint32`. -/
def leUint32 (b : Slice) : Except Fault Nat := do
  let _ ← b.index 3
  let b0 ← b.index 0
  let b1 ← b.index 1
  let b2 ← b.index 2
  let b3 ← b.index 3
  pure (b0.val ||| b1.val <<< 8 ||| b2.val <<< 16 ||| b3.val <<< 24)

/-- Go `binary.BigEndian.Uint32`. -/
def beUint32 (b : Slice) : Except Fault Nat := do
  let _ ← b.index 3
  let b0 ← b.index 0
  let b1 ← b.index 1
  let b2 ← b.index 2
  let b3 ← b.index 3
  pure (b3.val ||| b2.val <<< 8 ||| b1.val <<< 16 ||| b0.val <<< 24)

/-- Go `binary.LittleEndian.Uint64`. -/
def leUint64 (b : Slice) : Except Fault Nat := do
  let _ ← b.index 7
  let b0 ← b.index 0
  let b1 ← b.index 1
  let b2 ← b.index 2
  let b3 ← b.index 3
  let b4 ← b.index 4
  let b5 ← b.index 5
  let b6 ← b.index 6
  let b7 ← b.index 7
  pure (b0.val ||| b1.val <<< 8 ||| b2.val <<< 16 ||| b3.val <<< 24 |||
    b4.val <<< 32 ||| b5.val <<< 40 ||| b6.val <<< 48 ||| b7.val <<< 56)

/-- Go `binary.BigEndian.Uint64`. -/
def beUint64 (b : Slice) : Except Fault Nat := do
  let _ ← b.index 7
  let b0 ← b.index 0
  let b1 ← b.index 1
  let b2 ← b.index 2
  let b3 ← b.index 3
  let b4 ← b.index 4
  let b5 ← b.index 5
  let b6 ← b.index 6
  let b7 ← b.index 7
  pure (b7.val ||| b6.val <<< 8 ||| b5.val <<< 16 ||| b4.val <<< 24 |||
    b3.val <<< 32 ||| b2.val <<< 40 ||| b1.val <<< 48 ||| b0.val <<< 56)

namespace ByteOrder

/-- Method `Uint16` of a `binary.ByteOrder`. -/
def Uint16 : ByteOrder → Slice → Except Fault Nat
  | LittleEndian => leUint16
  | BigEndian => beUint16

/-- Method `Uint32` of a `binary.ByteOrder`. -/
def Uint32 : ByteOrder → Slice → Except Fault Nat
  | LittleEndian => leUint32
  | BigEndian => beUint32

/-- Method `Uint64` of a `binary.ByteOrder`. -/
def Uint64 : ByteOrder → Slice → Except Fault Nat
  | LittleEndian => leUint64
  | BigEndian => beUint64

end ByteOrder

/-- The function values the width switch of `main` can store in `bytesToU64`.
The closures of cases 1, 2 and 4 read the global `endianness` when they are
called; case 8 stores the method value `endianness.Uint64`, whose receiver is
fixed when the switch runs. -/
inductive Decoder where
  | case1
  | case2
  | case4
  | case8 (receiver : ByteOrder)
deriving DecidableEq, Repr

/-- The package-level variables of `main.go` the decoder reads or writes, the
colour handed to `gl.ClearColor`, and the connection. -/
structure State where
  endianness : ByteOrder
  bytesToU64 : Option Decoder
  lenInt : Nat
  maxWorldX : F32
  maxWorldY : F32
  maxWorldZ : F32
  clearColor : Option (F32 × F32 × F32 × F32)
  score : Nat
  gameEnded : Bool
  to_be_rendered : List Point
  conn : List Slice
deriving DecidableEq, Repr

/-- The variables as they stand when the metadata message is awaited: zero
values, the probed byte order, and the messages the server will send. -/
def State.init (e : ByteOrder) (msgs : List Slice) : State :=
  { endianness := e, bytesToU64 := none, lenInt := 0,
    maxWorldX := .conv 0, maxWorldY := .conv 0, maxWorldZ := .conv 0,
    clearColor := none, score := 0, gameEnded := false,
    to_be_rendered := [], conn := msgs }

/-- The call `c.ReadMessage()` followed by `orDie(err)`: the next message of the
connection, or a fatal error when the connection delivers none.  `main` reads
through its local `c`, `NextFrame` through the package-level `c`; both are taken
to be the one open connection to the server. -/
def ReadMessage (st : State) : Except Fault (Slice × State) :=
  match st.conn with
  | [] => .error .readError
  | m :: rest => .ok (m, { st with conn := rest })

/-- The call `bytesToU64(a)` through the global function variable; calling it
while it is still nil panics. -/
def bytesToU64 (st : State) (a : Slice) : Except Fault Nat :=
  match st.bytesToU64 with
  | none => .error .nilFunc
  | some .case1 => do
    let b ← a.index 0
    pure b.val
  | some .case2 => st.endianness.Uint16 a
  | some .case4 => st.endianness.Uint32 a
  | some (.case8 e) => e.Uint64 a

/-- The `switch lenInt` of `main`: it has no default case, so any other width
leaves `bytesToU64` as it was. -/
def widthSwitch (st : State) : State :=
  match st.lenInt with
  | 1 => { st with bytesToU64 := some .case1 }
  | 2 => { st with bytesToU64 := some .case2 }
  | 4 => { st with bytesToU64 := some .case4 }
  | 8 => { st with bytesToU64 := some (.case8 st.endianness) }
  | _ => st

/-- Go `parseCoords`. -/
def parseCoords (st : State) (size : Slice) : Except Fault (F32 × F32 × F32) := do
  let sx ← size.reslice 0 st.lenInt
  let x ← bytesToU64 st sx
  let sy ← size.reslice st.lenInt (u8 (2 * st.lenInt))
  let y ← bytesToU64 st sy
  let sz ← size.reslice (u8 (2 * st.lenInt)) (u8 (3 * st.lenInt))
  let z ← bytesToU64 st sz
  pure (.conv x, .conv y, .conv z)

/-- Go `parseColors`. -/
def parseColors (colors : Slice) : Except Fault (F32 × F32 × F32) := do
  let c0 ← colors.index 0
  let c1 ← colors.index 1
  let c2 ← colors.index 2
  pure (.quot (.conv c0.val) (.conv 255), .quot (.conv c1.val) (.conv 255),
    .quot (.conv c2.val) (.conv 255))

/-- Go `parsePoint`. -/
def parsePoint (st : State) (point : Slice) : Except Fault Point := do
  let pc ← point.reslice 0 (u8 (3 * st.lenInt))
  let (x, y, z) ← parseCoords st pc
  let pk ← point.reslice (u8 (3 * st.lenInt)) (u8 (u8 (3 * st.lenInt) + 3))
  let (r, g, b) ← parseColors pk
  pure (PC x y z r g b (.conv 1))

/-- One pass through the body of the `for` loop of `NextFrame` at index `i`: the
slice expression and the call of `parsePoint`. -/
def nextFrameBody (st : State) (dataRaw : Slice) (i : Nat) : Except Fault Point := do
  let pointRaw ← dataRaw.reslice (4 + i * 3 * st.lenInt) (4 + i * u8 (u8 (3 * st.lenInt) + 3))
  parsePoint st pointRaw

/-- The `for i := 0; i < int(numPoints); i++` loop of `NextFrame`, entered at
index `i` with `left = numPoints - i` passes to go; `points` is the slice made
by `make([]*Point, numPoints)`, whose entries start as nil. -/
def nextFrameLoop (st : State) (dataRaw : Slice) :
    Nat → Nat → List (Option Point) → Except Fault (List (Option Point))
  | 0, _, points => .ok points
  | left + 1, i, points => do
    let p ← nextFrameBody st dataRaw i
    nextFrameLoop st dataRaw left (i + 1) (points.set i (some p))

/-- Go `NextFrame`: the returned slice together with the variables afterwards. -/
def NextFrame (st : State) : Except Fault (List (Option Point) × State) := do
  let (dataRaw, st1) ← ReadMessage st
  let hdr ← dataRaw.reslice 0 4
  let numPoints ← beUint32 hdr
  let st2 ← (if numPoints = 0 then do
      let (scoreRaw, st') ← ReadMessage st1
      let s ← beUint32 scoreRaw
      pure { st' with score := s, gameEnded := true }
    else pure st1 : Except Fault State)
  let points ← nextFrameLoop st2 dataRaw numPoints 0 (List.replicate numPoints none)
  pure (points, st2)

/-- The metadata step of `main`: from `c.ReadMessage()` to `gl.ClearColor`. -/
def mainMetadata (st : State) : Except Fault State := do
  let (metaRaw, st) ← ReadMessage st
  let b0 ← metaRaw.index 0
  let st := widthSwitch { st with lenInt := b0.val / 8 }
  let sc ← metaRaw.reslice 1 (u8 (1 + u8 (3 * st.lenInt)))
  let (x, y, z) ← parseCoords st sc
  let st := { st with maxWorldX := x, maxWorldY := y, maxWorldZ := z }
  let sk ← metaRaw.reslice (u8 (1 + u8 (3 * st.lenInt))) (u8 (4 + u8 (3 * st.lenInt)))
  let (worldR, worldG, worldB) ← parseColors sk
  pure { st with clearColor := some (worldR, worldG, worldB, .conv 1) }

/-- A message as delivered with no room behind it: length equal to capacity. -/
def Slice.exact (l : List Byte) : Slice := ⟨l, []⟩

/-- The bytes `l[off .. off+w)` as a slice of their own. -/
def window (l : List Byte) (off w : Nat) : Slice := Slice.exact ((l.drop off).take w)

/-- The width `w` is in force: `lenInt` holds it and `bytesToU64` is what the
width switch stores for it. -/
def Negotiated (st : State) (w : Nat) : Prop := st.lenInt = w ∧ widthSwitch st = st

instance (st : State) (w : Nat) : Decidable (Negotiated st w) := by
  unfold Negotiated
  infer_instance

/-! ## Sample inputs -/

/-- A state in which the game has ended and one more tick is waiting on the
connection: width 1, one point `(1,2,3)` coloured `(10,20,30)`. -/
def endedWithTick : State :=
  { widthSwitch { State.init .LittleEndian [Slice.exact [0, 0, 0, 1, 1, 2, 3, 10, 20, 30]] with
      lenInt := 1 } with score := 42, gameEnded := true }

/-- A state in which the game has ended and a sentinel tick followed by the
score 7 is waiting on the connection. -/
def endedWithSentinel : State :=
  { State.init .LittleEndian [Slice.exact [0, 0, 0, 0], Slice.exact [0, 0, 0, 7]] with
    score := 42, gameEnded := true }

/-- A state awaiting a width-1 tick of one point while the render loop still
holds an older frame of one point. -/
def staleFrame : State :=
  { widthSwitch { State.init .LittleEndian [Slice.exact [0, 0, 0, 1, 1, 2, 3, 10, 20, 30]] with
      lenInt := 1 } with
    to_be_rendered := [PC (.conv 9) (.conv 9) (.conv 9) (.conv 1) (.conv 1) (.conv 1) (.conv 1)] }

/-- A width-2 little-endian tick of two 9-byte records: `(1,2,3)` coloured
`(10,20,30)`, then `(4,5,6)` coloured `(40,50,60)`. -/
def twoRecords : List Byte :=
  [0, 0, 0, 2, 1, 0, 2, 0, 3, 0, 10, 20, 30, 4, 0, 5, 0, 6, 0, 40, 50, 60]

/-- The state awaiting `twoRecords` with width 2 in force. -/
def awaitingTwoRecords : State :=
  widthSwitch { State.init .LittleEndian [Slice.exact twoRecords] with lenInt := 2 }

/-- A width-1 tick announcing two points but one byte short of two 6-byte
records (15 bytes instead of 16). -/
def oneByteShort : List Byte :=
  [0, 0, 0, 2, 1, 2, 3, 10, 20, 30, 4, 5, 6, 40, 50]

/-- The state awaiting `oneByteShort` with width 1 in force. -/
def awaitingOneByteShort : State :=
  widthSwitch { State.init .LittleEndian [Slice.exact oneByteShort] with lenInt := 1 }

/-! ## Auxiliary facts -/

@[simp] theorem bind_ok {ε α β : Type} (a : α) (f : α → Except ε β) :
    (Except.ok a >>= f) = f a := rfl

@[simp] theorem bind_error {ε α β : Type} (e : ε) (f : α → Except ε β) :
    (Except.error e >>= f) = Except.error e := rfl

theorem lor_shift (a b k : Nat) (h : a < 2 ^ k) : a ||| b <<< k = a + b * 2 ^ k := by
  rw [Nat.lor_comm, Nat.shiftLeft_eq, Nat.mul_comm b, ← Nat.mul_add_lt_is_or h]
  omega

theorem leUint16_pair (a0 a1 : Byte) (sp : List Byte) :
    leUint16 ⟨[a0, a1], sp⟩ =
      .ok (a0.val + a1.val * 256) := by
  have h0 := a0.isLt
  simp only [leUint16, Slice.index, List.getElem?_cons_zero, List.getElem?_cons_succ,
    bind_ok, pure, Except.pure]
  rw [lor_shift a0.val _ 8 (by omega)]
  norm_num

theorem beUint16_pair (a0 a1 : Byte) (sp : List Byte) :
    beUint16 ⟨[a0, a1], sp⟩ =
      .ok (a1.val + a0.val * 256) := by
  have h1 := a1.isLt
  simp only [beUint16, Slice.index, List.getElem?_cons_zero, List.getElem?_cons_succ,
    bind_ok, pure, Except.pure]
  rw [lor_shift a1.val _ 8 (by omega)]
  norm_num

theorem leUint32_quad (a0 a1 a2 a3 : Byte) (sp : List Byte) :
    leUint32 ⟨[a0, a1, a2, a3], sp⟩ =
      .ok (a0.val + a1.val * 256 + a2.val * 256 ^ 2 + a3.val * 256 ^ 3) := by
  have h0 := a0.isLt
  have h1 := a1.isLt
  have h2 := a2.isLt
  simp only [leUint32, Slice.index, List.getElem?_cons_zero, List.getElem?_cons_succ,
    bind_ok, pure, Except.pure]
  rw [lor_shift a0.val _ 8 (by omega), lor_shift _ _ 16 (by omega), lor_shift _ _ 24 (by omega)]
  norm_num

theorem beUint32_quad (a0 a1 a2 a3 : Byte) (sp : List Byte) :
    beUint32 ⟨[a0, a1, a2, a3], sp⟩ =
      .ok (a3.val + a2.val * 256 + a1.val * 256 ^ 2 + a0.val * 256 ^ 3) := by
  have h3 := a3.isLt
  have h2 := a2.isLt
  have h1 := a1.isLt
  simp only [beUint32, Slice.index, List.getElem?_cons_zero, List.getElem?_cons_succ,
    bind_ok, pure, Except.pure]
  rw [lor_shift a3.val _ 8 (by omega), lor_shift _ _ 16 (by omega), lor_shift _ _ 24 (by omega)]
  norm_num

theorem leUint64_oct (a0 a1 a2 a3 a4 a5 a6 a7 : Byte) (sp : List Byte) :
    leUint64 ⟨[a0, a1, a2, a3, a4, a5, a6, a7], sp⟩ =
      .ok (a0.val + a1.val * 256 + a2.val * 256 ^ 2 + a3.val * 256 ^ 3 + a4.val * 256 ^ 4 + a5.val * 256 ^ 5 + a6.val * 256 ^ 6 + a7.val * 256 ^ 7) := by
  have h0 := a0.isLt
  have h1 := a1.isLt
  have h2 := a2.isLt
  have h3 := a3.isLt
  have h4 := a4.isLt
  have h5 := a5.isLt
  have h6 := a6.isLt
  simp only [leUint64, Slice.index, List.getElem?_cons_zero, List.getElem?_cons_succ,
    bind_ok, pure, Except.pure]
  rw [lor_shift a0.val _ 8 (by omega), lor_shift _ _ 16 (by omega), lor_shift _ _ 24 (by omega), lor_shift _ _ 32 (by omega), lor_shift _ _ 40 (by omega), lor_shift _ _ 48 (by omega), lor_shift _ _ 56 (by omega)]
  norm_num

theorem beUint64_oct (a0 a1 a2 a3 a4 a5 a6 a7 : Byte) (sp : List Byte) :
    beUint64 ⟨[a0, a1, a2, a3, a4, a5, a6, a7], sp⟩ =
      .ok (a7.val + a6.val * 256 + a5.val * 256 ^ 2 + a4.val * 256 ^ 3 + a3.val * 256 ^ 4 + a2.val * 256 ^ 5 + a1.val * 256 ^ 6 + a0.val * 256 ^ 7) := by
  have h7 := a7.isLt
  have h6 := a6.isLt
  have h5 := a5.isLt
  have h4 := a4.isLt
  have h3 := a3.isLt
  have h2 := a2.isLt
  have h1 := a1.isLt
  simp only [beUint64, Slice.index, List.getElem?_cons_zero, List.getElem?_cons_succ,
    bind_ok, pure, Except.pure]
  rw [lor_shift a7.val _ 8 (by omega), lor_shift _ _ 16 (by omega), lor_shift _ _ 24 (by omega), lor_shift _ _ 32 (by omega), lor_shift _ _ 40 (by omega), lor_shift _ _ 48 (by omega), lor_shift _ _ 56 (by omega)]
  norm_num

theorem length_two {l : List Byte} (h : l.length = 2) : ∃ a0 a1, l = [a0, a1] := by
  rcases l with _ | ⟨a0, _ | ⟨a1, _ | ⟨a2, t⟩⟩⟩ <;> simp at h
  exact ⟨a0, a1, rfl⟩

theorem length_four {l : List Byte} (h : l.length = 4) :
    ∃ a0 a1 a2 a3, l = [a0, a1, a2, a3] := by
  rcases l with _ | ⟨a0, _ | ⟨a1, _ | ⟨a2, _ | ⟨a3, _ | ⟨a4, t⟩⟩⟩⟩⟩ <;> simp at h
  exact ⟨a0, a1, a2, a3, rfl⟩

theorem length_eight {l : List Byte} (h : l.length = 8) :
    ∃ a0 a1 a2 a3 a4 a5 a6 a7, l = [a0, a1, a2, a3, a4, a5, a6, a7] := by
  rcases l with _ | ⟨a0, _ | ⟨a1, _ | ⟨a2, _ | ⟨a3, _ | ⟨a4, _ | ⟨a5, _ | ⟨a6, _ | ⟨a7, _ | ⟨a8, t⟩⟩⟩⟩⟩⟩⟩⟩⟩ <;>
    simp at h
  exact ⟨a0, a1, a2, a3, a4, a5, a6, a7, rfl⟩

theorem length_one {l : List Byte} (h : l.length = 1) : ∃ a0, l = [a0] := by
  rcases l with _ | ⟨a0, _ | ⟨a1, t⟩⟩ <;> simp at h
  exact ⟨a0, rfl⟩

/-- C3: the function the width switch stores in `bytesToU64` returns, for a
width of 1, 2, 4 or 8 and a slice of that many bytes, the positional value of
the bytes: least significant byte first under little-endian, most significant
byte first under big-endian (for width 1 both are the byte itself). -/
theorem bytesToU64_standard_value (st : State) (w : Nat) (b : Slice)
    (hw : w = 1 ∨ w = 2 ∨ w = 4 ∨ w = 8) (hlen : b.len = w) :
    bytesToU64 (widthSwitch { st with lenInt := w }) b =
      .ok (match st.endianness with
        | .LittleEndian => ∑ k in Finset.range w, (b.elems.getD k 0).val * 256 ^ k
        | .BigEndian => ∑ k in Finset.range w, (b.elems.getD k 0).val * 256 ^ (w - 1 - k)) := by
  obtain ⟨l, sp⟩ := b
  simp only [Slice.len] at hlen
  rcases hw with rfl | rfl | rfl | rfl
  · obtain ⟨a0, rfl⟩ := length_one hlen
    cases he : st.endianness <;>
      simp [bytesToU64, widthSwitch, Slice.index, pure, Except.pure]
  · obtain ⟨a0, a1, rfl⟩ := length_two hlen
    cases he : st.endianness
    · simp [bytesToU64, widthSwitch, he, ByteOrder.Uint16, leUint16_pair, beUint16_pair,
        Finset.sum_range_succ]
    · simp [bytesToU64, widthSwitch, he, ByteOrder.Uint16, leUint16_pair, beUint16_pair,
        Finset.sum_range_succ]
      omega
  · obtain ⟨a0, a1, a2, a3, rfl⟩ := length_four hlen
    cases he : st.endianness
    · simp [bytesToU64, widthSwitch, he, ByteOrder.Uint32, leUint32_quad, beUint32_quad,
        Finset.sum_range_succ]
    · simp [bytesToU64, widthSwitch, he, ByteOrder.Uint32, leUint32_quad, beUint32_quad,
        Finset.sum_range_succ]
      omega
  · obtain ⟨a0, a1, a2, a3, a4, a5, a6, a7, rfl⟩ := length_eight hlen
    cases he : st.endianness
    · simp [bytesToU64, widthSwitch, he, ByteOrder.Uint64, leUint64_oct, beUint64_oct,
        Finset.sum_range_succ]
    · simp [bytesToU64, widthSwitch, he, ByteOrder.Uint64, leUint64_oct, beUint64_oct,
        Finset.sum_range_succ]
      omega

/-- Witness for C3: the two bytes `34 12` under little-endian are `0x1234`. -/
theorem bytesToU64_standard_value_witness :
    (2 = 1 ∨ 2 = 2 ∨ 2 = 4 ∨ 2 = 8) ∧ (Slice.exact [0x34, 0x12]).len = 2 ∧
    bytesToU64 (widthSwitch { State.init .LittleEndian [] with lenInt := 2 })
      (Slice.exact [0x34, 0x12]) = .ok 0x1234 :=
  ⟨by decide, rfl,
    (bytesToU64_standard_value (State.init .LittleEndian []) 2 (Slice.exact [0x34, 0x12])
      (by decide) rfl).trans (by simp [State.init, Slice.exact, Finset.sum_range_succ]; decide)⟩

/-! ## Slices -/

theorem reslice_ok (s : Slice) (lo hi : Nat) (h1 : lo ≤ hi) (h2 : hi ≤ s.full.length) :
    s.reslice lo hi = .ok ⟨(s.full.drop lo).take (hi - lo), s.full.drop hi⟩ := by
  simp [Slice.reslice, Slice.cap, h1, h2]

theorem reslice_err (s : Slice) (lo hi : Nat) (h : ¬ (lo ≤ hi ∧ hi ≤ s.full.length)) :
    s.reslice lo hi = .error .sliceBounds := by
  simp only [Slice.reslice, Slice.cap, if_neg h]

theorem window_append_rest (l : List Byte) (lo hi : Nat) (h : lo ≤ hi) :
    (l.drop lo).take (hi - lo) ++ l.drop hi = l.drop lo := by
  have : l.drop hi = (l.drop lo).drop (hi - lo) := by
    rw [List.drop_drop]
    congr 1
    omega
  rw [this, List.take_append_drop]

theorem u8_small (n : Nat) (h : n < 256) : u8 n = n := Nat.mod_eq_of_lt h

theorem index_congr (a b : Slice) (h : a.elems = b.elems) (i : Nat) : a.index i = b.index i := by
  simp [Slice.index, h]

theorem bytesToU64_congr (st : State) (a b : Slice) (h : a.elems = b.elems) :
    bytesToU64 st a = bytesToU64 st b := by
  have hi := index_congr a b h
  unfold bytesToU64
  cases st.bytesToU64 with
  | none => rfl
  | some d =>
    cases d with
    | case1 => simp only [hi]
    | case2 => cases st.endianness <;> simp only [ByteOrder.Uint16, leUint16, beUint16, hi]
    | case4 => cases st.endianness <;> simp only [ByteOrder.Uint32, leUint32, beUint32, hi]
    | case8 e => cases e <;> simp only [ByteOrder.Uint64, leUint64, beUint64, hi]

theorem negotiated_eq (st : State) (w : Nat) (h : Negotiated st w) :
    widthSwitch { st with lenInt := w } = st := by
  obtain ⟨h1, h2⟩ := h
  subst h1
  exact h2

theorem negotiated_decoder (st : State) (w : Nat) (h : Negotiated st w) :
    st.bytesToU64 = (widthSwitch { st with lenInt := w }).bytesToU64 := by
  rw [negotiated_eq st w h]

theorem bytesToU64_total (st : State) (w : Nat) (b : Slice)
    (hw : w = 1 ∨ w = 2 ∨ w = 4 ∨ w = 8) (hneg : Negotiated st w) (hlen : b.len = w) :
    ∃ x, bytesToU64 st b = .ok x := by
  have hd := negotiated_decoder st w hneg
  obtain ⟨l, sp⟩ := b
  simp only [Slice.len] at hlen
  rcases hw with rfl | rfl | rfl | rfl
  · obtain ⟨a0, rfl⟩ := length_one hlen
    exact ⟨a0.val, by simp [bytesToU64, hd, widthSwitch, Slice.index, pure, Except.pure]⟩
  · obtain ⟨a0, a1, rfl⟩ := length_two hlen
    cases he : st.endianness
    · simp [bytesToU64, hd, widthSwitch, he, ByteOrder.Uint16, leUint16_pair]
    · simp [bytesToU64, hd, widthSwitch, he, ByteOrder.Uint16, beUint16_pair]
  · obtain ⟨a0, a1, a2, a3, rfl⟩ := length_four hlen
    cases he : st.endianness
    · simp [bytesToU64, hd, widthSwitch, he, ByteOrder.Uint32, leUint32_quad]
    · simp [bytesToU64, hd, widthSwitch, he, ByteOrder.Uint32, beUint32_quad]
  · obtain ⟨a0, a1, a2, a3, a4, a5, a6, a7, rfl⟩ := length_eight hlen
    cases he : st.endianness
    · simp [bytesToU64, hd, widthSwitch, he, ByteOrder.Uint64, leUint64_oct]
    · simp [bytesToU64, hd, widthSwitch, he, ByteOrder.Uint64, beUint64_oct]

theorem index_ok (s : Slice) (i : Nat) (h : i < s.elems.length) :
    s.index i = .ok (s.elems.getD i 0) := by
  simp [Slice.index, List.getD_eq_getElem?_getD, List.getElem?_eq_getElem h]

theorem window_len (l : List Byte) (off w : Nat) (h : off + w ≤ l.length) :
    (window l off w).len = w := by
  simp only [window, Slice.exact, Slice.len, List.length_take, List.length_drop]
  omega

theorem take_drop_getD (l : List Byte) (a k i : Nat) (h : i < k) :
    ((l.drop a).take k).getD i 0 = l.getD (a + i) 0 := by
  simp [List.getD_eq_getElem?_getD, List.getElem?_take, h]

theorem take_drop_append (l sp : List Byte) (a k : Nat) (h : a + k ≤ l.length) :
    ((l ++ sp).drop a).take k = (l.drop a).take k := by
  rw [List.drop_append_of_le_length (by omega), List.take_append_of_le_length]
  simp only [List.length_drop]
  omega

theorem parseCoords_ok (st : State) (w : Nat) (size : Slice)
    (hw : w = 1 ∨ w = 2 ∨ w = 4 ∨ w = 8) (hneg : Negotiated st w)
    (hcap : 3 * w ≤ size.full.length) :
    ∃ x y z, bytesToU64 st (window size.full 0 w) = .ok x ∧
      bytesToU64 st (window size.full w w) = .ok y ∧
      bytesToU64 st (window size.full (2 * w) w) = .ok z ∧
      parseCoords st size = .ok (.conv x, .conv y, .conv z) := by
  have hl : st.lenInt = w := hneg.1
  have hw8 : w ≤ 8 := by omega
  obtain ⟨x, hx⟩ := bytesToU64_total st w (window size.full 0 w) hw hneg
    (window_len _ _ _ (by omega))
  obtain ⟨y, hy⟩ := bytesToU64_total st w (window size.full w w) hw hneg
    (window_len _ _ _ (by omega))
  obtain ⟨z, hz⟩ := bytesToU64_total st w (window size.full (2 * w) w) hw hneg
    (window_len _ _ _ (by omega))
  refine ⟨x, y, z, hx, hy, hz, ?_⟩
  unfold parseCoords
  rw [hl, u8_small (2 * w) (by omega), u8_small (3 * w) (by omega),
    reslice_ok size 0 w (by omega) (by omega), reslice_ok size w (2 * w) (by omega) (by omega),
    reslice_ok size (2 * w) (3 * w) (by omega) (by omega)]
  simp only [bind_ok]
  rw [bytesToU64_congr st _ (window size.full 0 w) (by simp [window, Slice.exact]), hx]
  simp only [bind_ok]
  rw [bytesToU64_congr st _ (window size.full w w)
    (by simp only [window, Slice.exact]; congr 1; omega), hy]
  simp only [bind_ok]
  rw [bytesToU64_congr st _ (window size.full (2 * w) w)
    (by simp only [window, Slice.exact]; congr 1; omega), hz]
  rfl

theorem parseCoords_nil (st : State) (size : Slice) (h : st.bytesToU64 = none) :
    ∃ e, parseCoords st size = .error e := by
  unfold parseCoords
  cases size.reslice 0 st.lenInt with
  | error e => exact ⟨e, rfl⟩
  | ok sx => exact ⟨.nilFunc, by simp [bytesToU64, h]⟩

theorem parseColors_ok (colors : Slice) (h : 3 ≤ colors.elems.length) :
    parseColors colors =
      .ok (.quot (.conv (colors.elems.getD 0 0).val) (.conv 255),
        .quot (.conv (colors.elems.getD 1 0).val) (.conv 255),
        .quot (.conv (colors.elems.getD 2 0).val) (.conv 255)) := by
  unfold parseColors
  rw [index_ok colors 0 (by omega), index_ok colors 1 (by omega), index_ok colors 2 (by omega)]
  rfl

theorem negotiated_switch (st : State) (w : Nat) (hw : w = 1 ∨ w = 2 ∨ w = 4 ∨ w = 8) :
    Negotiated (widthSwitch { st with lenInt := w }) w := by
  rcases hw with rfl | rfl | rfl | rfl <;> simp [Negotiated, widthSwitch]

theorem readMessage_cons (st : State) (m : Slice) (rest : List Slice) (h : st.conn = m :: rest) :
    ReadMessage st = .ok (m, { st with conn := rest }) := by
  simp [ReadMessage, h]

theorem reslice_spec (s : Slice) (lo hi : Nat) (h1 : lo ≤ hi) (h2 : hi ≤ s.full.length) :
    ∃ t, s.reslice lo hi = .ok t ∧ t.full = s.full.drop lo ∧
      t.elems = (s.full.drop lo).take (hi - lo) :=
  ⟨_, reslice_ok s lo hi h1 h2, window_append_rest s.full lo hi h1, rfl⟩

theorem window_drop (l : List Byte) (a off w : Nat) :
    window (l.drop a) off w = window l (a + off) w := by
  simp only [window, List.drop_drop]

theorem mainMetadata_ok (st : State) (m : Slice) (rest : List Slice) (w : Nat)
    (hw : w = 1 ∨ w = 2 ∨ w = 4 ∨ w = 8) (hconn : st.conn = m :: rest)
    (h1 : 1 ≤ m.len) (hb : (m.elems.getD 0 0).val / 8 = w) (hcap : 4 + 3 * w ≤ m.full.length) :
    ∃ x y z,
      bytesToU64 (widthSwitch { st with conn := rest, lenInt := w }) (window m.full 1 w) = .ok x ∧
      bytesToU64 (widthSwitch { st with conn := rest, lenInt := w })
        (window m.full (1 + w) w) = .ok y ∧
      bytesToU64 (widthSwitch { st with conn := rest, lenInt := w })
        (window m.full (1 + 2 * w) w) = .ok z ∧
      mainMetadata st = .ok { widthSwitch { st with conn := rest, lenInt := w } with
        maxWorldX := .conv x, maxWorldY := .conv y, maxWorldZ := .conv z,
        clearColor := some (.quot (.conv (m.full.getD (1 + 3 * w) 0).val) (.conv 255),
          .quot (.conv (m.full.getD (2 + 3 * w) 0).val) (.conv 255),
          .quot (.conv (m.full.getD (3 + 3 * w) 0).val) (.conv 255), .conv 1) } := by
  have hw8 : w ≤ 8 := by omega
  have hneg := negotiated_switch { st with conn := rest } w hw
  have hl := hneg.1
  obtain ⟨sc, hsc, hscf, -⟩ := reslice_spec m 1 (1 + 3 * w) (by omega) (by omega)
  obtain ⟨sk, hsk, -, hske⟩ := reslice_spec m (1 + 3 * w) (4 + 3 * w) (by omega) (by omega)
  obtain ⟨x, y, z, hx, hy, hz, hpc⟩ := parseCoords_ok _ w sc hw hneg (by
    rw [hscf, List.length_drop]
    omega)
  rw [hscf, window_drop] at hx hy hz
  refine ⟨x, y, z, hx, hy, hz, ?_⟩
  have hk := parseColors_ok sk (by
    rw [hske, List.length_take, List.length_drop]
    omega)
  rw [hske, take_drop_getD _ _ _ 0 (by omega), take_drop_getD _ _ _ 1 (by omega),
    take_drop_getD _ _ _ 2 (by omega), Nat.add_zero, (by omega : 1 + 3 * w + 1 = 2 + 3 * w),
    (by omega : 1 + 3 * w + 2 = 3 + 3 * w)] at hk
  unfold mainMetadata
  rw [readMessage_cons st m rest hconn]
  simp only [bind_ok]
  rw [index_ok m 0 h1]
  simp only [bind_ok, hb, hl]
  rw [u8_small (3 * w) (by omega), u8_small (1 + 3 * w) (by omega),
    u8_small (4 + 3 * w) (by omega), hsc]
  simp only [bind_ok]
  rw [hpc]
  simp only [bind_ok]
  rw [hsk]
  simp only [bind_ok]
  rw [hk]
  rfl

theorem widthSwitch_keep (st : State)
    (h : ¬ (st.lenInt = 1 ∨ st.lenInt = 2 ∨ st.lenInt = 4 ∨ st.lenInt = 8)) :
    widthSwitch st = st := by
  unfold widthSwitch
  split <;> simp_all

theorem getD_append_left (l sp : List Byte) (i : Nat) (h : i < l.length) :
    (l ++ sp).getD i 0 = l.getD i 0 := by
  simp [List.getD_eq_getElem?_getD, List.getElem?_append_left h]

theorem window_full (m : Slice) (off w : Nat) (h : off + w ≤ m.len) :
    window m.full off w = window m.elems off w := by
  simp only [window, Slice.full]
  rw [take_drop_append _ _ _ _ h]

/-- C4: for a first message whose byte 0 announces a width `w` of 1, 2, 4 or 8
and which holds at least `4 + 3*w` bytes, the metadata step succeeds, sets
`lenInt` to `w`, sets `maxWorldX`, `maxWorldY`, `maxWorldZ` to the `float32`
conversions of the values `bytesToU64` decodes from `m[1..1+w)`, `m[1+w..1+2w)`
and `m[1+2w..1+3w)`, and passes the bytes `m[1+3w]`, `m[2+3w]`, `m[3+3w]`, each
divided by 255, as the world colour. -/
theorem mainMetadata_layout (st : State) (m : Slice) (rest : List Slice) (w : Nat)
    (hw : w = 1 ∨ w = 2 ∨ w = 4 ∨ w = 8) (hconn : st.conn = m :: rest)
    (hb : (m.elems.getD 0 0).val / 8 = w) (hlen : 4 + 3 * w ≤ m.len) :
    ∃ st' x y z, mainMetadata st = .ok st' ∧ st'.lenInt = w ∧ st'.conn = rest ∧
      bytesToU64 st' (window m.elems 1 w) = .ok x ∧
      bytesToU64 st' (window m.elems (1 + w) w) = .ok y ∧
      bytesToU64 st' (window m.elems (1 + 2 * w) w) = .ok z ∧
      st'.maxWorldX = .conv x ∧ st'.maxWorldY = .conv y ∧ st'.maxWorldZ = .conv z ∧
      st'.clearColor = some (.quot (.conv (m.elems.getD (1 + 3 * w) 0).val) (.conv 255),
        .quot (.conv (m.elems.getD (2 + 3 * w) 0).val) (.conv 255),
        .quot (.conv (m.elems.getD (3 + 3 * w) 0).val) (.conv 255), .conv 1) := by
  have hl : m.len = m.elems.length := rfl
  have hcap : 4 + 3 * w ≤ m.full.length := by
    simp only [Slice.full, List.length_append]
    omega
  obtain ⟨x, y, z, hx, hy, hz, hm⟩ := mainMetadata_ok st m rest w hw hconn (by omega) hb hcap
  rw [window_full m _ _ (by omega)] at hx hy hz
  have hneg := negotiated_switch { st with conn := rest } w hw
  have hrest : (widthSwitch { st with conn := rest, lenInt := w }).conn = rest := by
    rcases hw with rfl | rfl | rfl | rfl <;> rfl
  refine ⟨_, x, y, z, hm, hneg.1, hrest, hx, hy, hz, rfl, rfl, rfl, ?_⟩
  simp only [Slice.full]
  rw [getD_append_left _ _ _ (by omega), getD_append_left _ _ _ (by omega),
    getD_append_left _ _ _ (by omega)]

/-- Witness for C4: the width-4 big-endian metadata message
`20 00000001 00000002 00000003 0A 14 1E` (16 bytes). -/
theorem mainMetadata_layout_witness :
    mainMetadata (State.init .BigEndian
      [Slice.exact [32, 0, 0, 0, 1, 0, 0, 0, 2, 0, 0, 0, 3, 10, 20, 30]]) =
      .ok { State.init .BigEndian [] with
        bytesToU64 := some .case4, lenInt := 4,
        maxWorldX := .conv 1, maxWorldY := .conv 2, maxWorldZ := .conv 3,
        clearColor := some (.quot (.conv 10) (.conv 255), .quot (.conv 20) (.conv 255),
          .quot (.conv 30) (.conv 255), .conv 1) } ∧
    ∃ st' x y z, mainMetadata (State.init .BigEndian
      [Slice.exact [32, 0, 0, 0, 1, 0, 0, 0, 2, 0, 0, 0, 3, 10, 20, 30]]) = .ok st' ∧
      st'.lenInt = 4 ∧ st'.maxWorldX = .conv x ∧ st'.maxWorldY = .conv y ∧
      st'.maxWorldZ = .conv z :=
  ⟨rfl, by
    obtain ⟨st', x, y, z, h, hl, -, -, -, -, hx, hy, hz, -⟩ :=
      mainMetadata_layout (State.init .BigEndian
        [Slice.exact [32, 0, 0, 0, 1, 0, 0, 0, 2, 0, 0, 0, 3, 10, 20, 30]])
        (Slice.exact [32, 0, 0, 0, 1, 0, 0, 0, 2, 0, 0, 0, 3, 10, 20, 30]) [] 4
        (by decide) rfl (by decide) (by decide)
    exact ⟨st', x, y, z, h, hl, hx, hy, hz⟩⟩

/-- C5: when byte 0 of the first message announces a width other than 1, 2, 4 or
8 (width 0 included), the metadata step ends in a panic: the width switch has
no case for it, `bytesToU64` stays nil, and `parseCoords` calls it (unless the
slice expression before it is already out of range). -/
theorem mainMetadata_rejects_width (st : State) (m : Slice) (rest : List Slice)
    (hnil : st.bytesToU64 = none) (hconn : st.conn = m :: rest) (h1 : 1 ≤ m.len)
    (hw : ¬ ((m.elems.getD 0 0).val / 8 = 1 ∨ (m.elems.getD 0 0).val / 8 = 2 ∨
      (m.elems.getD 0 0).val / 8 = 4 ∨ (m.elems.getD 0 0).val / 8 = 8)) :
    ∃ e, mainMetadata st = .error e := by
  unfold mainMetadata
  rw [readMessage_cons st m rest hconn]
  simp only [bind_ok]
  rw [index_ok m 0 h1]
  simp only [bind_ok]
  rw [widthSwitch_keep _ hw]
  cases m.reslice 1 (u8 (1 + u8 (3 * ((m.elems.getD 0 0).val / 8)))) with
  | error e => exact ⟨e, rfl⟩
  | ok sc =>
    obtain ⟨e, he⟩ := parseCoords_nil
      { st with conn := rest, lenInt := (m.elems.getD 0 0).val / 8 } sc hnil
    refine ⟨e, ?_⟩
    simp only [bind_ok]
    rw [he]
    rfl

/-- Witness for C5: a first message announcing width 3 (byte 0 = 24). -/
theorem mainMetadata_rejects_width_witness :
    ∃ e, mainMetadata (State.init .LittleEndian
      [Slice.exact [24, 1, 0, 0, 2, 0, 0, 3, 0, 0, 10, 20, 30]]) = .error e :=
  mainMetadata_rejects_width (State.init .LittleEndian
    [Slice.exact [24, 1, 0, 0, 2, 0, 0, 3, 0, 0, 10, 20, 30]])
    (Slice.exact [24, 1, 0, 0, 2, 0, 0, 3, 0, 0, 10, 20, 30]) [] rfl rfl (by decide) (by decide)

theorem mainMetadata_short (st : State) (l : List Byte) (rest : List Slice) (w : Nat)
    (hw : w = 1 ∨ w = 2 ∨ w = 4 ∨ w = 8) (hconn : st.conn = Slice.exact l :: rest)
    (h1 : 1 ≤ l.length) (hb : (l.getD 0 0).val / 8 = w) (hlen : l.length < 4 + 3 * w) :
    mainMetadata st = .error .sliceBounds := by
  have hw8 : w ≤ 8 := by omega
  have hfull : (Slice.exact l).full = l := by simp [Slice.exact, Slice.full]
  have hneg := negotiated_switch { st with conn := rest } w hw
  have hl := hneg.1
  unfold mainMetadata
  rw [readMessage_cons st _ rest hconn]
  simp only [bind_ok]
  rw [index_ok (Slice.exact l) 0 h1]
  simp only [bind_ok, Slice.exact, hb, hl]
  rw [u8_small (3 * w) (by omega), u8_small (1 + 3 * w) (by omega),
    u8_small (4 + 3 * w) (by omega)]
  by_cases hA : 1 + 3 * w ≤ l.length
  · obtain ⟨sc, hsc, hscf, -⟩ := reslice_spec (Slice.exact l) 1 (1 + 3 * w) (by omega)
      (by rw [hfull]; exact hA)
    obtain ⟨x, y, z, -, -, -, hpc⟩ := parseCoords_ok _ w sc hw hneg (by
      rw [hscf, hfull, List.length_drop]
      omega)
    simp only [Slice.exact] at hsc
    rw [hsc]
    simp only [bind_ok]
    rw [hpc]
    simp only [bind_ok]
    rw [reslice_err _ _ _ (by
      simp only [Slice.full, List.append_nil]
      omega)]
    rfl
  · rw [reslice_err _ _ _ (by
      simp only [Slice.full, List.append_nil]
      omega)]
    rfl

/-- C7: for a first message delivered with length equal to capacity whose
byte 0 announces a width `w` of 1, 2, 4 or 8, the metadata step panics exactly
when the message is shorter than `4 + 3*w = 1 + 3*w + 3` bytes, and succeeds
otherwise. -/
theorem mainMetadata_truncated_iff (st : State) (l : List Byte) (rest : List Slice) (w : Nat)
    (hw : w = 1 ∨ w = 2 ∨ w = 4 ∨ w = 8) (hconn : st.conn = Slice.exact l :: rest)
    (hb : (l.getD 0 0).val / 8 = w) :
    ((∃ e, mainMetadata st = .error e) ↔ l.length < 4 + 3 * w) ∧
    ((∃ st', mainMetadata st = .ok st') ↔ 4 + 3 * w ≤ l.length) := by
  have h1 : 1 ≤ l.length := by
    cases l with
    | nil =>
      simp at hb
      omega
    | cons a t => simp
  have hgood : 4 + 3 * w ≤ l.length → ∃ st', mainMetadata st = .ok st' := by
    intro h
    obtain ⟨x, y, z, -, -, -, hm⟩ := mainMetadata_ok st (Slice.exact l) rest w hw hconn h1 hb
      (by simpa [Slice.exact, Slice.full] using h)
    exact ⟨_, hm⟩
  have hbad : l.length < 4 + 3 * w → ∃ e, mainMetadata st = .error e :=
    fun h => ⟨_, mainMetadata_short st l rest w hw hconn h1 hb h⟩
  constructor
  · constructor
    · rintro ⟨e, he⟩
      by_contra hc
      obtain ⟨st', hs⟩ := hgood (by omega)
      rw [he] at hs
      cases hs
    · exact hbad
  · constructor
    · rintro ⟨st', hs⟩
      by_contra hc
      obtain ⟨e, he⟩ := hbad (by omega)
      rw [hs] at he
      cases he
    · exact hgood

/-- Witness for C7: a width-4 message (byte 0 = 32) of 15 bytes is rejected,
one of 16 bytes is accepted. -/
theorem mainMetadata_truncated_iff_witness :
    (∃ e, mainMetadata (State.init .LittleEndian
      [Slice.exact [32, 1, 0, 0, 0, 2, 0, 0, 0, 3, 0, 0, 0, 10, 20]]) = .error e) ∧
    (∃ st', mainMetadata (State.init .LittleEndian
      [Slice.exact [32, 1, 0, 0, 0, 2, 0, 0, 0, 3, 0, 0, 0, 10, 20, 30]]) = .ok st') :=
  ⟨(mainMetadata_truncated_iff (State.init .LittleEndian
      [Slice.exact [32, 1, 0, 0, 0, 2, 0, 0, 0, 3, 0, 0, 0, 10, 20]])
      [32, 1, 0, 0, 0, 2, 0, 0, 0, 3, 0, 0, 0, 10, 20] [] 4 (by decide) rfl (by decide)).1.mpr
      (by decide),
    (mainMetadata_truncated_iff (State.init .LittleEndian
      [Slice.exact [32, 1, 0, 0, 0, 2, 0, 0, 0, 3, 0, 0, 0, 10, 20, 30]])
      [32, 1, 0, 0, 0, 2, 0, 0, 0, 3, 0, 0, 0, 10, 20, 30] [] 4 (by decide) rfl
      (by decide)).2.mpr (by decide)⟩

/-! ## The tick parser -/

theorem beUint32_ok (s : Slice) (h : 4 ≤ s.elems.length) :
    beUint32 s = .ok ((s.elems.getD 0 0).val * 256 ^ 3 + (s.elems.getD 1 0).val * 256 ^ 2 +
      (s.elems.getD 2 0).val * 256 + (s.elems.getD 3 0).val) := by
  have h3 := (s.elems.getD 3 0).isLt
  have h2 := (s.elems.getD 2 0).isLt
  have h1 := (s.elems.getD 1 0).isLt
  unfold beUint32
  rw [index_ok s 0 (by omega), index_ok s 1 (by omega), index_ok s 2 (by omega),
    index_ok s 3 (by omega)]
  simp only [bind_ok, pure, Except.pure]
  rw [lor_shift (s.elems.getD 3 0).val _ 8 (by omega), lor_shift _ _ 16 (by omega),
    lor_shift _ _ 24 (by omega)]
  congr 1
  omega

theorem header_ok (d : Slice) (h : 4 ≤ d.full.length) :
    (d.reslice 0 4 >>= beUint32) =
      .ok ((d.full.getD 0 0).val * 256 ^ 3 + (d.full.getD 1 0).val * 256 ^ 2 +
        (d.full.getD 2 0).val * 256 + (d.full.getD 3 0).val) := by
  rw [reslice_ok d 0 4 (by omega) h]
  simp only [bind_ok]
  rw [beUint32_ok _ (by
    simp only [List.length_take, List.length_drop]
    omega)]
  simp only [take_drop_getD _ 0 (4 - 0) _ (by omega : 0 < 4 - 0),
    take_drop_getD _ 0 (4 - 0) _ (by omega : 1 < 4 - 0),
    take_drop_getD _ 0 (4 - 0) _ (by omega : 2 < 4 - 0),
    take_drop_getD _ 0 (4 - 0) _ (by omega : 3 < 4 - 0), Nat.zero_add]

theorem pointAt_ok (st : State) (w : Nat) (d : Slice) (lo hi : Nat)
    (hw : w = 1 ∨ w = 2 ∨ w = 4 ∨ w = 8) (hneg : Negotiated st w)
    (hlohi : lo ≤ hi) (hhi : hi ≤ d.full.length) (hcap : lo + 3 * w + 3 ≤ d.full.length) :
    ∃ x y z, bytesToU64 st (window d.full lo w) = .ok x ∧
      bytesToU64 st (window d.full (lo + w) w) = .ok y ∧
      bytesToU64 st (window d.full (lo + 2 * w) w) = .ok z ∧
      (d.reslice lo hi >>= parsePoint st) = .ok (PC (.conv x) (.conv y) (.conv z)
        (.quot (.conv (d.full.getD (lo + 3 * w) 0).val) (.conv 255))
        (.quot (.conv (d.full.getD (lo + 3 * w + 1) 0).val) (.conv 255))
        (.quot (.conv (d.full.getD (lo + 3 * w + 2) 0).val) (.conv 255)) (.conv 1)) := by
  have hw8 : w ≤ 8 := by omega
  have hl := hneg.1
  obtain ⟨pt, hpt, hptf, -⟩ := reslice_spec d lo hi hlohi hhi
  have hptlen : pt.full.length = d.full.length - lo := by rw [hptf, List.length_drop]
  obtain ⟨pc, hpc, hpcf, -⟩ := reslice_spec pt 0 (3 * w) (by omega) (by omega)
  obtain ⟨pk, hpk, -, hpke⟩ := reslice_spec pt (3 * w) (3 * w + 3) (by omega) (by omega)
  obtain ⟨x, y, z, hx, hy, hz, hco⟩ := parseCoords_ok st w pc hw hneg (by
    rw [hpcf, List.drop_zero]
    omega)
  rw [hpcf, List.drop_zero, hptf, window_drop] at hx hy hz
  refine ⟨x, y, z, hx, hy, hz, ?_⟩
  have hk := parseColors_ok pk (by
    rw [hpke, List.length_take, List.length_drop]
    omega)
  rw [hpke, take_drop_getD _ _ _ 0 (by omega), take_drop_getD _ _ _ 1 (by omega),
    take_drop_getD _ _ _ 2 (by omega), hptf] at hk
  simp only [List.getD_eq_getElem?_getD, List.getElem?_drop] at hk
  simp only [List.getD_eq_getElem?_getD]
  rw [hpt]
  simp only [bind_ok]
  unfold parsePoint
  rw [hl, u8_small (3 * w) (by omega), u8_small (3 * w + 3) (by omega), hpc]
  simp only [bind_ok]
  rw [hco]
  simp only [bind_ok]
  rw [hpk]
  simp only [bind_ok]
  rw [hk]
  simp only [bind_ok, pure, Except.pure, Nat.add_zero, Nat.add_assoc]

theorem nextFrameLoop_ok (st : State) (d : Slice) :
    ∀ (left i : Nat) (pts : List (Option Point)),
      (∀ j, i ≤ j → j < i + left → ∃ p, nextFrameBody st d j = .ok p) →
      i + left ≤ pts.length →
      ∃ out, nextFrameLoop st d left i pts = .ok out ∧ out.length = pts.length ∧
        (∀ j, j < i → out[j]? = pts[j]?) ∧
        (∀ j, i ≤ j → j < i + left → ∀ p, nextFrameBody st d j = .ok p →
          out[j]? = some (some p)) := by
  intro left
  induction left with
  | zero =>
    intro i pts _ _
    exact ⟨pts, rfl, rfl, fun _ _ => rfl, fun j h1 h2 => by omega⟩
  | succ k ih =>
    intro i pts hbody hlen
    obtain ⟨p, hp⟩ := hbody i (Nat.le_refl i) (by omega)
    obtain ⟨out, hout, holen, hpre, hpost⟩ := ih (i + 1) (pts.set i (some p))
      (fun j h1 h2 => hbody j (by omega) (by omega)) (by
        rw [List.length_set]
        omega)
    refine ⟨out, ?_, ?_, ?_, ?_⟩
    · simp only [nextFrameLoop, hp, bind_ok]
      exact hout
    · rw [holen, List.length_set]
    · intro j hj
      rw [hpre j (by omega), List.getElem?_set_ne (by omega)]
    · intro j h1 h2 q hq
      by_cases hji : j = i
      · subst hji
        rw [hp] at hq
        cases hq
        rw [hpre j (by omega), List.getElem?_set_self (by omega)]
      · exact hpost j (by omega) (by omega) q hq

/-- C2: a tick whose four header bytes are zero is the game-over sentinel:
`NextFrame` reads the tick and the message after it (two messages in all), stores
the big-endian value of the first four bytes of that message in `score`, sets
`gameEnded`, and returns the empty sequence. -/
theorem NextFrame_sentinel (st : State) (t s : Slice) (rest : List Slice)
    (hconn : st.conn = t :: s :: rest) (ht : 4 ≤ t.len) (hs : 4 ≤ s.len)
    (hzero : (t.elems.getD 0 0).val * 256 ^ 3 + (t.elems.getD 1 0).val * 256 ^ 2 +
      (t.elems.getD 2 0).val * 256 + (t.elems.getD 3 0).val = 0) :
    NextFrame st = .ok ([], { st with
      conn := rest
      score := (s.elems.getD 0 0).val * 256 ^ 3 + (s.elems.getD 1 0).val * 256 ^ 2 +
        (s.elems.getD 2 0).val * 256 + (s.elems.getD 3 0).val
      gameEnded := true }) := by
  have htl : t.len = t.elems.length := rfl
  have hcap : 4 ≤ t.full.length := by
    simp only [Slice.full, List.length_append]
    omega
  have hh := header_ok t hcap
  simp only [Slice.full] at hh
  rw [getD_append_left _ _ _ (by omega), getD_append_left _ _ _ (by omega),
    getD_append_left _ _ _ (by omega), getD_append_left _ _ _ (by omega), hzero] at hh
  unfold NextFrame
  rw [readMessage_cons st t (s :: rest) hconn]
  simp only [bind_ok]
  rw [← bind_assoc, hh]
  simp only [bind_ok, if_true]
  rw [readMessage_cons _ s rest rfl]
  simp only [bind_ok]
  rw [beUint32_ok s hs]
  rfl

/-- Witness for C2: the tick `00 00 00 00` followed by `00 00 00 2A` ends the
game with score 42. -/
theorem NextFrame_sentinel_witness :
    NextFrame (State.init .LittleEndian
      [Slice.exact [0, 0, 0, 0], Slice.exact [0, 0, 0, 0x2A]]) =
      .ok ([], { State.init .LittleEndian [] with score := 42, gameEnded := true }) :=
  NextFrame_sentinel (State.init .LittleEndian
    [Slice.exact [0, 0, 0, 0], Slice.exact [0, 0, 0, 0x2A]])
    (Slice.exact [0, 0, 0, 0]) (Slice.exact [0, 0, 0, 0x2A]) [] rfl (by decide) (by decide)
    (by decide)

theorem nextFrameBody_ok (st : State) (w n : Nat) (d : Slice) (i : Nat)
    (hw : w = 1 ∨ w = 2 ∨ w = 4 ∨ w = 8) (hneg : Negotiated st w) (hi : i < n)
    (hcap : 4 + n * (3 * w + 3) ≤ d.full.length) :
    ∃ x y z, bytesToU64 st (window d.full (4 + 3 * i * w) w) = .ok x ∧
      bytesToU64 st (window d.full (4 + 3 * i * w + w) w) = .ok y ∧
      bytesToU64 st (window d.full (4 + 3 * i * w + 2 * w) w) = .ok z ∧
      nextFrameBody st d i = .ok (PC (.conv x) (.conv y) (.conv z)
        (.quot (.conv (d.full.getD (4 + 3 * i * w + 3 * w) 0).val) (.conv 255))
        (.quot (.conv (d.full.getD (4 + 3 * i * w + 3 * w + 1) 0).val) (.conv 255))
        (.quot (.conv (d.full.getD (4 + 3 * i * w + 3 * w + 2) 0).val) (.conv 255))
        (.conv 1)) := by
  have hw8 : w ≤ 8 := by omega
  have hl := hneg.1
  have hoff : 4 + i * 3 * w = 4 + 3 * i * w := by rw [Nat.mul_comm i 3]
  have hA : 4 + 3 * i * w ≤ 4 + i * (3 * w + 3) := by
    rcases hw with rfl | rfl | rfl | rfl <;> omega
  have hB : 4 + i * (3 * w + 3) ≤ d.full.length := by
    rcases hw with rfl | rfl | rfl | rfl <;> omega
  have hC : 4 + 3 * i * w + 3 * w + 3 ≤ d.full.length := by
    rcases hw with rfl | rfl | rfl | rfl <;> omega
  obtain ⟨x, y, z, hx, hy, hz, hp⟩ := pointAt_ok st w d (4 + 3 * i * w) (4 + i * (3 * w + 3))
    hw hneg hA hB hC
  refine ⟨x, y, z, hx, hy, hz, ?_⟩
  unfold nextFrameBody
  rw [hl, u8_small (3 * w) (by omega), u8_small (3 * w + 3) (by omega), hoff]
  exact hp

/-- C10: with a width `w` of 1, 2, 4 or 8 in force and a tick message of length
and capacity `4 + n*(3*w+3)` whose big-endian header is `n >= 1` (whatever the
byte order used for coordinates), `NextFrame` succeeds, consumes that one
message, changes nothing else, and returns `n` points; point `i` takes `x`, `y`,
`z` from the three `w`-byte groups starting at offset `4 + 3*i*w` and its colour
from the three bytes that follow them, at `4 + 3*i*w + 3*w`, each divided by
255.  The points are thus `3*w` bytes apart although each reads `3*w + 3` bytes:
the colour bytes of point `i` are the first coordinate bytes of point `i+1`. -/
theorem NextFrame_actual_offsets (st : State) (w n : Nat) (d : List Byte) (rest : List Slice)
    (hw : w = 1 ∨ w = 2 ∨ w = 4 ∨ w = 8) (hneg : Negotiated st w) (hn : 1 ≤ n)
    (hconn : st.conn = Slice.exact d :: rest) (hlen : d.length = 4 + n * (3 * w + 3))
    (hhdr : (d.getD 0 0).val * 256 ^ 3 + (d.getD 1 0).val * 256 ^ 2 +
      (d.getD 2 0).val * 256 + (d.getD 3 0).val = n) :
    ∃ pts, NextFrame st = .ok (pts, { st with conn := rest }) ∧ pts.length = n ∧
      ∀ i, i < n → ∃ x y z,
        bytesToU64 st (window d (4 + 3 * i * w) w) = .ok x ∧
        bytesToU64 st (window d (4 + 3 * i * w + w) w) = .ok y ∧
        bytesToU64 st (window d (4 + 3 * i * w + 2 * w) w) = .ok z ∧
        pts[i]? = some (some (PC (.conv x) (.conv y) (.conv z)
          (.quot (.conv (d.getD (4 + 3 * i * w + 3 * w) 0).val) (.conv 255))
          (.quot (.conv (d.getD (4 + 3 * i * w + 3 * w + 1) 0).val) (.conv 255))
          (.quot (.conv (d.getD (4 + 3 * i * w + 3 * w + 2) 0).val) (.conv 255))
          (.conv 1))) := by
  have hfull : (Slice.exact d).full = d := by simp [Slice.exact, Slice.full]
  have hcap : 4 + n * (3 * w + 3) ≤ (Slice.exact d).full.length := by
    rw [hfull]
    omega
  have hh := header_ok (Slice.exact d) (by omega)
  rw [hfull, hhdr] at hh
  have hst : bytesToU64 { st with conn := rest } = bytesToU64 st := rfl
  have hneg' : Negotiated { st with conn := rest } w := by
    obtain ⟨h1, h2⟩ := hneg
    refine ⟨h1, ?_⟩
    have h3 := congrArg (fun s : State => { s with conn := rest }) h2
    rcases hw with rfl | rfl | rfl | rfl <;> simpa [widthSwitch, h1] using h3
  obtain ⟨pts, hloop, hplen, -, hpts⟩ := nextFrameLoop_ok { st with conn := rest }
    (Slice.exact d) n 0 (List.replicate n none)
    (fun j _ hj => by
      obtain ⟨x, y, z, -, -, -, hb⟩ := nextFrameBody_ok { st with conn := rest } w n
        (Slice.exact d) j hw hneg' (by omega) hcap
      exact ⟨_, hb⟩)
    (by simp)
  refine ⟨pts, ?_, by simpa using hplen, ?_⟩
  · unfold NextFrame
    rw [readMessage_cons st _ rest hconn]
    simp only [bind_ok]
    rw [← bind_assoc, hh]
    simp only [bind_ok, if_neg (by omega : ¬ n = 0), pure, Except.pure]
    rw [hloop]
    rfl
  · intro i hi
    obtain ⟨x, y, z, hx, hy, hz, hb⟩ := nextFrameBody_ok { st with conn := rest } w n
      (Slice.exact d) i hw hneg' hi hcap
    rw [hfull] at hx hy hz hb
    rw [hst] at hx hy hz
    exact ⟨x, y, z, hx, hy, hz, hpts i (Nat.zero_le i) (by omega) _ hb⟩

theorem bind_eq_ok {ε α β : Type} {x : Except ε α} {f : α → Except ε β} {b : β} :
    (x >>= f) = .ok b ↔ ∃ a, x = .ok a ∧ f a = .ok b := by
  cases x with
  | error e => simp
  | ok a => simp

theorem index_err (s : Slice) (i : Nat) (h : s.elems.length ≤ i) :
    s.index i = .error .indexOutOfRange := by
  simp [Slice.index, List.getElem?_eq_none h]

theorem reslice_bounds (s t : Slice) (lo hi : Nat) (h : s.reslice lo hi = .ok t) :
    lo ≤ hi ∧ hi ≤ s.full.length := by
  by_contra hc
  rw [reslice_err s lo hi hc] at h
  cases h

theorem beUint32_len (s : Slice) (v : Nat) (h : beUint32 s = .ok v) : 4 ≤ s.elems.length := by
  by_contra hc
  unfold beUint32 at h
  rw [index_err s 3 (by omega)] at h
  cases h

theorem parsePoint_short (st : State) (w : Nat) (pt : Slice)
    (hw : w = 1 ∨ w = 2 ∨ w = 4 ∨ w = 8) (hneg : Negotiated st w)
    (hshort : pt.full.length < 3 * w + 3) : parsePoint st pt = .error .sliceBounds := by
  have hw8 : w ≤ 8 := by omega
  have hl := hneg.1
  unfold parsePoint
  rw [hl, u8_small (3 * w) (by omega), u8_small (3 * w + 3) (by omega)]
  by_cases hA : 3 * w ≤ pt.full.length
  · obtain ⟨pc, hpc, hpcf, -⟩ := reslice_spec pt 0 (3 * w) (by omega) hA
    obtain ⟨x, y, z, -, -, -, hco⟩ := parseCoords_ok st w pc hw hneg (by
      rw [hpcf, List.drop_zero]
      exact hA)
    rw [hpc]
    simp only [bind_ok]
    rw [hco]
    simp only [bind_ok]
    rw [reslice_err _ _ _ (by omega)]
    rfl
  · rw [reslice_err _ _ _ (by omega)]
    rfl

theorem nextFrameBody_inv (st : State) (w : Nat) (d : Slice) (i : Nat) (p : Point)
    (hw : w = 1 ∨ w = 2 ∨ w = 4 ∨ w = 8) (hneg : Negotiated st w)
    (h : nextFrameBody st d i = .ok p) :
    ∃ x y z, bytesToU64 st (window d.full (4 + 3 * i * w) w) = .ok x ∧
      bytesToU64 st (window d.full (4 + 3 * i * w + w) w) = .ok y ∧
      bytesToU64 st (window d.full (4 + 3 * i * w + 2 * w) w) = .ok z ∧
      p = PC (.conv x) (.conv y) (.conv z)
        (.quot (.conv (d.full.getD (4 + 3 * i * w + 3 * w) 0).val) (.conv 255))
        (.quot (.conv (d.full.getD (4 + 3 * i * w + 3 * w + 1) 0).val) (.conv 255))
        (.quot (.conv (d.full.getD (4 + 3 * i * w + 3 * w + 2) 0).val) (.conv 255))
        (.conv 1) := by
  have hw8 : w ≤ 8 := by omega
  have hl := hneg.1
  have hoff : 4 + i * 3 * w = 4 + 3 * i * w := by rw [Nat.mul_comm i 3]
  unfold nextFrameBody at h
  rw [hl, u8_small (3 * w) (by omega), u8_small (3 * w + 3) (by omega), hoff] at h
  obtain ⟨pt, hpt, hpp⟩ := bind_eq_ok.1 h
  obtain ⟨hlohi, hhi⟩ := reslice_bounds d pt _ _ hpt
  obtain ⟨pt', hpt', hptf, -⟩ := reslice_spec d _ _ hlohi hhi
  rw [hpt] at hpt'
  cases hpt'
  have hcap : 4 + 3 * i * w + 3 * w + 3 ≤ d.full.length := by
    by_contra hc
    rw [parsePoint_short st w pt hw hneg (by
      rw [hptf, List.length_drop]
      omega)] at hpp
    cases hpp
  obtain ⟨x, y, z, hx, hy, hz, hp⟩ := pointAt_ok st w d _ _ hw hneg hlohi hhi hcap
  rw [h] at hp
  exact ⟨x, y, z, hx, hy, hz, by
    simp only [Except.ok.injEq] at hp
    exact hp⟩

theorem nextFrameLoop_inv (st : State) (d : Slice) :
    ∀ (left i : Nat) (pts out : List (Option Point)),
      nextFrameLoop st d left i pts = .ok out → i + left ≤ pts.length →
      out.length = pts.length ∧ (∀ j, j < i → out[j]? = pts[j]?) ∧
        (∀ j, i ≤ j → j < i + left →
          ∃ p, nextFrameBody st d j = .ok p ∧ out[j]? = some (some p)) := by
  intro left
  induction left with
  | zero =>
    intro i pts out h _
    simp only [nextFrameLoop] at h
    cases h
    exact ⟨rfl, fun _ _ => rfl, fun j h1 h2 => by omega⟩
  | succ k ih =>
    intro i pts out h hlen
    simp only [nextFrameLoop] at h
    obtain ⟨p, hp, hrec⟩ := bind_eq_ok.1 h
    obtain ⟨holen, hpre, hpost⟩ := ih (i + 1) (pts.set i (some p)) out hrec (by
      rw [List.length_set]
      omega)
    refine ⟨by rw [holen, List.length_set], ?_, ?_⟩
    · intro j hj
      rw [hpre j (by omega), List.getElem?_set_ne (by omega)]
    · intro j h1 h2
      by_cases hji : j = i
      · subst hji
        exact ⟨p, hp, by rw [hpre j (by omega), List.getElem?_set_self (by omega)]⟩
      · exact hpost j (by omega) (by omega)

theorem NextFrame_inv (st st' : State) (pts : List (Option Point))
    (h : NextFrame st = .ok (pts, st')) :
    ∃ m rest n, st.conn = m :: rest ∧
      n = (m.full.getD 0 0).val * 256 ^ 3 + (m.full.getD 1 0).val * 256 ^ 2 +
        (m.full.getD 2 0).val * 256 + (m.full.getD 3 0).val ∧
      (n ≠ 0 → st' = { st with conn := rest }) ∧
      (n = 0 → ∃ s rest', rest = s :: rest' ∧
        st' = { st with
          conn := rest'
          score := (s.elems.getD 0 0).val * 256 ^ 3 + (s.elems.getD 1 0).val * 256 ^ 2 +
            (s.elems.getD 2 0).val * 256 + (s.elems.getD 3 0).val
          gameEnded := true }) ∧
      nextFrameLoop st' m n 0 (List.replicate n none) = .ok pts := by
  unfold NextFrame at h
  cases hc : st.conn with
  | nil => simp [ReadMessage, hc] at h
  | cons m rest =>
    rw [readMessage_cons st m rest hc] at h
    simp only [bind_ok] at h
    obtain ⟨hdr, hhdr, h⟩ := bind_eq_ok.1 h
    obtain ⟨n, hn, h⟩ := bind_eq_ok.1 h
    obtain ⟨st2, hst2, h⟩ := bind_eq_ok.1 h
    obtain ⟨out, hout, h⟩ := bind_eq_ok.1 h
    simp only [pure, Except.pure, Except.ok.injEq, Prod.mk.injEq] at h
    obtain ⟨rfl, rfl⟩ := h
    have h4 := (reslice_bounds m hdr 0 4 hhdr).2
    have hh := header_ok m h4
    rw [hhdr] at hh
    simp only [bind_ok] at hh
    rw [hn] at hh
    simp only [Except.ok.injEq] at hh
    refine ⟨m, rest, n, rfl, hh, ?_, ?_, hout⟩
    · intro hz
      rw [if_neg hz] at hst2
      simp only [pure, Except.pure, Except.ok.injEq] at hst2
      exact hst2.symm
    · intro hz
      rw [if_pos hz] at hst2
      cases rest with
      | nil => simp [ReadMessage] at hst2
      | cons s rest' =>
        rw [readMessage_cons _ s rest' rfl] at hst2
        simp only [bind_ok] at hst2
        obtain ⟨v, hv, hst⟩ := bind_eq_ok.1 hst2
        rw [beUint32_ok s (beUint32_len s v hv)] at hv
        simp only [Except.ok.injEq] at hv
        simp only [pure, Except.pure, Except.ok.injEq] at hst
        subst hv
        exact ⟨s, rest', rfl, hst.symm⟩

theorem negotiated_conn (st : State) (w : Nat) (rest : List Slice)
    (hw : w = 1 ∨ w = 2 ∨ w = 4 ∨ w = 8) (hneg : Negotiated st w) :
    Negotiated { st with conn := rest } w := by
  obtain ⟨h1, h2⟩ := hneg
  refine ⟨h1, ?_⟩
  have h3 := congrArg (fun s : State => { s with conn := rest }) h2
  rcases hw with rfl | rfl | rfl | rfl <;> simpa [widthSwitch, h1] using h3

/-- C8, refuted as stated: with `gameEnded` already true, `NextFrame` still
reads the waiting tick off the connection and returns its point. -/
theorem NextFrame_reads_after_end :
    endedWithTick.gameEnded = true ∧
    endedWithTick.conn = [Slice.exact [0, 0, 0, 1, 1, 2, 3, 10, 20, 30]] ∧
    NextFrame endedWithTick = .ok
      ([some (PC (.conv 1) (.conv 2) (.conv 3) (.quot (.conv 10) (.conv 255))
        (.quot (.conv 20) (.conv 255)) (.quot (.conv 30) (.conv 255)) (.conv 1))],
       { endedWithTick with conn := [] }) :=
  ⟨rfl, rfl, rfl⟩

/-- C8, amended: `NextFrame` never tests `gameEnded`.  Called in a state where
`gameEnded` is true, a successful call has read the next message `m` of the
connection and `gameEnded` is still true afterwards.  When the big-endian header
of `m` is not zero, exactly that one message has been consumed and nothing else
has changed (`score` included).  When the header is zero, exactly two messages
have been consumed, `m` and the message `s` after it, `score` has been rewritten
to the big-endian value of the first four bytes of `s`, and nothing else has
changed. -/
theorem NextFrame_ignores_gameEnded (st st' : State) (pts : List (Option Point))
    (hend : st.gameEnded = true) (h : NextFrame st = .ok (pts, st')) :
    st'.gameEnded = true ∧ ∃ m rest, st.conn = m :: rest ∧
      ((m.full.getD 0 0).val * 256 ^ 3 + (m.full.getD 1 0).val * 256 ^ 2 +
          (m.full.getD 2 0).val * 256 + (m.full.getD 3 0).val ≠ 0 →
        st' = { st with conn := rest }) ∧
      ((m.full.getD 0 0).val * 256 ^ 3 + (m.full.getD 1 0).val * 256 ^ 2 +
          (m.full.getD 2 0).val * 256 + (m.full.getD 3 0).val = 0 →
        ∃ s rest', rest = s :: rest' ∧
          st' = { st with
            conn := rest'
            score := (s.elems.getD 0 0).val * 256 ^ 3 + (s.elems.getD 1 0).val * 256 ^ 2 +
              (s.elems.getD 2 0).val * 256 + (s.elems.getD 3 0).val
            gameEnded := true }) := by
  obtain ⟨m, rest, n, hc, hn, hnz, hz, -⟩ := NextFrame_inv st st' pts h
  subst hn
  refine ⟨?_, m, rest, hc, hnz, hz⟩
  by_cases h0 : (m.full.getD 0 0).val * 256 ^ 3 + (m.full.getD 1 0).val * 256 ^ 2 +
      (m.full.getD 2 0).val * 256 + (m.full.getD 3 0).val = 0
  · obtain ⟨s, rest', -, hst⟩ := hz h0
    rw [hst]
  · rw [hnz h0]
    exact hend

/-- Witness for the amended C8, at a waiting one-point tick (`endedWithTick`)
and at a waiting sentinel followed by the score 7 (`endedWithSentinel`). -/
theorem NextFrame_ignores_gameEnded_witness :
    (NextFrame endedWithTick = .ok
      ([some (PC (.conv 1) (.conv 2) (.conv 3) (.quot (.conv 10) (.conv 255))
        (.quot (.conv 20) (.conv 255)) (.quot (.conv 30) (.conv 255)) (.conv 1))],
       { endedWithTick with conn := [] }) ∧
      ({ endedWithTick with conn := [] } : State).gameEnded = true) ∧
    (NextFrame endedWithSentinel = .ok
      ([], { endedWithSentinel with conn := [], score := 7, gameEnded := true }) ∧
      ({ endedWithSentinel with conn := [], score := 7, gameEnded := true } : State).gameEnded
        = true) :=
  ⟨⟨rfl, (NextFrame_ignores_gameEnded endedWithTick { endedWithTick with conn := [] } _
      rfl rfl).1⟩,
    ⟨rfl, (NextFrame_ignores_gameEnded endedWithSentinel
      { endedWithSentinel with conn := [], score := 7, gameEnded := true } _ rfl rfl).1⟩⟩

/-- C9, refuted as stated: after a successful `NextFrame` on a one-point tick,
`to_be_rendered` still holds the older frame, not the point just decoded. -/
theorem NextFrame_keeps_stale_frame :
    NextFrame staleFrame = .ok
      ([some (PC (.conv 1) (.conv 2) (.conv 3) (.quot (.conv 10) (.conv 255))
        (.quot (.conv 20) (.conv 255)) (.quot (.conv 30) (.conv 255)) (.conv 1))],
       { staleFrame with conn := [] }) ∧
    ({ staleFrame with conn := [] } : State).to_be_rendered =
      [PC (.conv 9) (.conv 9) (.conv 9) (.conv 1) (.conv 1) (.conv 1) (.conv 1)] ∧
    ({ staleFrame with conn := [] } : State).to_be_rendered.map some ≠
      [some (PC (.conv 1) (.conv 2) (.conv 3) (.quot (.conv 10) (.conv 255))
        (.quot (.conv 20) (.conv 255)) (.quot (.conv 30) (.conv 255)) (.conv 1))] :=
  ⟨rfl, rfl, by decide⟩

/-- C9, amended: with a width `w` of 1, 2, 4 or 8 in force, a successful
`NextFrame` leaves `to_be_rendered` exactly as it was and hands the frame to its
caller as the return value: the returned sequence has as many entries as the
big-endian header of the message read announces, and entry `i` is the point
decoded from that message, `x`, `y`, `z` by `bytesToU64` from the three `w`-byte
groups at offset `4 + 3*i*w` and the colour from the three bytes after them, each
divided by 255, alpha 1. -/
theorem NextFrame_returns_frame (st st' : State) (pts : List (Option Point)) (w : Nat)
    (hw : w = 1 ∨ w = 2 ∨ w = 4 ∨ w = 8) (hneg : Negotiated st w)
    (h : NextFrame st = .ok (pts, st')) :
    st'.to_be_rendered = st.to_be_rendered ∧
      ∃ m, st.conn.head? = some m ∧
        pts.length = (m.full.getD 0 0).val * 256 ^ 3 + (m.full.getD 1 0).val * 256 ^ 2 +
          (m.full.getD 2 0).val * 256 + (m.full.getD 3 0).val ∧
        ∀ i, i < pts.length → ∃ x y z,
          bytesToU64 st (window m.full (4 + 3 * i * w) w) = .ok x ∧
          bytesToU64 st (window m.full (4 + 3 * i * w + w) w) = .ok y ∧
          bytesToU64 st (window m.full (4 + 3 * i * w + 2 * w) w) = .ok z ∧
          pts[i]? = some (some (PC (.conv x) (.conv y) (.conv z)
            (.quot (.conv (m.full.getD (4 + 3 * i * w + 3 * w) 0).val) (.conv 255))
            (.quot (.conv (m.full.getD (4 + 3 * i * w + 3 * w + 1) 0).val) (.conv 255))
            (.quot (.conv (m.full.getD (4 + 3 * i * w + 3 * w + 2) 0).val) (.conv 255))
            (.conv 1))) := by
  obtain ⟨m, rest, n, hc, hn, hnz, hz, hloop⟩ := NextFrame_inv st st' pts h
  obtain ⟨hlen, -, hpost⟩ := nextFrameLoop_inv st' m n 0 (List.replicate n none) pts hloop
    (by simp)
  rw [List.length_replicate] at hlen
  refine ⟨?_, m, by rw [hc]; rfl, by rw [hlen, hn], ?_⟩
  · by_cases h0 : n = 0
    · obtain ⟨s, rest', -, hst⟩ := hz h0
      rw [hst]
    · rw [hnz h0]
  · intro i hi
    have h0 : n ≠ 0 := by omega
    obtain ⟨p, hp, hpi⟩ := hpost i (Nat.zero_le i) (by omega)
    rw [hnz h0] at hp
    obtain ⟨x, y, z, hx, hy, hz', hpeq⟩ := nextFrameBody_inv { st with conn := rest } w m i p hw
      (negotiated_conn st w rest hw hneg) hp
    have hst : bytesToU64 { st with conn := rest } = bytesToU64 st := rfl
    rw [hst] at hx hy hz'
    exact ⟨x, y, z, hx, hy, hz', by rw [hpi, hpeq]⟩

/-- Witness for the amended C9 at `staleFrame`: the returned frame is the one
decoded point, `to_be_rendered` keeps the older frame. -/
theorem NextFrame_returns_frame_witness :
    NextFrame staleFrame = .ok
      ([some (PC (.conv 1) (.conv 2) (.conv 3) (.quot (.conv 10) (.conv 255))
        (.quot (.conv 20) (.conv 255)) (.quot (.conv 30) (.conv 255)) (.conv 1))],
       { staleFrame with conn := [] }) ∧
    ({ staleFrame with conn := [] } : State).to_be_rendered = staleFrame.to_be_rendered ∧
    ∃ x y z, bytesToU64 staleFrame (window [0, 0, 0, 1, 1, 2, 3, 10, 20, 30] 4 1) = .ok x ∧
      bytesToU64 staleFrame (window [0, 0, 0, 1, 1, 2, 3, 10, 20, 30] 5 1) = .ok y ∧
      bytesToU64 staleFrame (window [0, 0, 0, 1, 1, 2, 3, 10, 20, 30] 6 1) = .ok z ∧
      some (some (PC (.conv 1) (.conv 2) (.conv 3) (.quot (.conv 10) (.conv 255))
        (.quot (.conv 20) (.conv 255)) (.quot (.conv 30) (.conv 255)) (.conv 1))) =
      some (some (PC (.conv x) (.conv y) (.conv z) (.quot (.conv 10) (.conv 255))
        (.quot (.conv 20) (.conv 255)) (.quot (.conv 30) (.conv 255)) (.conv 1))) := by
  have hthm := NextFrame_returns_frame staleFrame { staleFrame with conn := [] }
    [some (PC (.conv 1) (.conv 2) (.conv 3) (.quot (.conv 10) (.conv 255))
      (.quot (.conv 20) (.conv 255)) (.quot (.conv 30) (.conv 255)) (.conv 1))] 1
    (by decide) (by decide) rfl
  obtain ⟨hkeep, m, hm, -, hpts⟩ := hthm
  have hmm : m = Slice.exact [0, 0, 0, 1, 1, 2, 3, 10, 20, 30] := by
    have : staleFrame.conn.head? = some (Slice.exact [0, 0, 0, 1, 1, 2, 3, 10, 20, 30]) := rfl
    rw [this] at hm
    exact (Option.some.inj hm).symm
  subst hmm
  obtain ⟨x, y, z, hx, hy, hz, hp⟩ := hpts 0 (by decide)
  exact ⟨rfl, hkeep, x, y, z, hx, hy, hz, hp⟩

/-- Witness for C10: the width-2 tick `twoRecords`, two points. -/
theorem NextFrame_actual_offsets_witness :
    NextFrame awaitingTwoRecords = .ok
      ([some (PC (.conv 1) (.conv 2) (.conv 3) (.quot (.conv 10) (.conv 255))
          (.quot (.conv 20) (.conv 255)) (.quot (.conv 30) (.conv 255)) (.conv 1)),
        some (PC (.conv (10 + 20 * 256)) (.conv (30 + 4 * 256)) (.conv (0 + 5 * 256))
          (.quot (.conv 0) (.conv 255)) (.quot (.conv 6) (.conv 255))
          (.quot (.conv 0) (.conv 255)) (.conv 1))],
       { awaitingTwoRecords with conn := [] }) ∧
    ∃ pts, NextFrame awaitingTwoRecords = .ok (pts, { awaitingTwoRecords with conn := [] }) ∧
      pts.length = 2 :=
  ⟨rfl, (NextFrame_actual_offsets awaitingTwoRecords 2 2 twoRecords [] (by decide) (by decide)
    (by decide) rfl rfl rfl).imp fun _ hp => ⟨hp.1, hp.2.1⟩⟩

/-- C1, the code at the spec's test input (`n = 2`, `w = 2`, two 9-byte
records): point 0 is record 0, but point 1 is read 6 bytes after point 0
instead of 9, so it is not record 1 `(4,5,6)` coloured `(40,50,60)`. -/
theorem NextFrame_second_record_misread :
    ∃ p0 p1 st', NextFrame awaitingTwoRecords = .ok ([some p0, some p1], st') ∧
      p0 = PC (.conv 1) (.conv 2) (.conv 3) (.quot (.conv 10) (.conv 255))
        (.quot (.conv 20) (.conv 255)) (.quot (.conv 30) (.conv 255)) (.conv 1) ∧
      p1 = PC (.conv 5130) (.conv 1054) (.conv 1280) (.quot (.conv 0) (.conv 255))
        (.quot (.conv 6) (.conv 255)) (.quot (.conv 0) (.conv 255)) (.conv 1) ∧
      p1 ≠ PC (.conv 4) (.conv 5) (.conv 6) (.quot (.conv 40) (.conv 255))
        (.quot (.conv 50) (.conv 255)) (.quot (.conv 60) (.conv 255)) (.conv 1) :=
  ⟨_, _, _, rfl, rfl, rfl, by decide⟩

/-- C6, the code at a truncated tick (`n = 2`, `w = 1`, 15 bytes where two
records need 16): `NextFrame` does not panic, it returns two points. -/
theorem NextFrame_accepts_truncated :
    oneByteShort.length + 1 = 4 + 2 * (3 * 1 + 3) ∧
    NextFrame awaitingOneByteShort = .ok
      ([some (PC (.conv 1) (.conv 2) (.conv 3) (.quot (.conv 10) (.conv 255))
          (.quot (.conv 20) (.conv 255)) (.quot (.conv 30) (.conv 255)) (.conv 1)),
        some (PC (.conv 10) (.conv 20) (.conv 30) (.quot (.conv 4) (.conv 255))
          (.quot (.conv 5) (.conv 255)) (.quot (.conv 6) (.conv 255)) (.conv 1))],
       { awaitingOneByteShort with conn := [] }) :=
  ⟨rfl, rfl⟩

end Snek3D
